import Mathlib

/-!
Verification development for the DNA-Parallax keyframe interpolation engine
(`parallax.js`, the variant with timeline modifiers, value fixups and the
out-of-range suppression mode).

Embedding conventions:
* Strings are `List Char`; `toL` converts Lean string literals.
* JavaScript numbers are idealised as `ℚ` (exact arithmetic; IEEE rounding
  and `NaN` are outside this idealisation — keyframes whose `keyText` does
  not parse to a number, which would propagate `NaN` in the source, are
  omitted rather than represented).
* The regex `[+-]?[0-9]+(\.[0-9]+)?` of `DnaProp.add` is implemented as a
  left-to-right, non-overlapping, greedy scanner (`lexTokensF`).
* JavaScript number-to-string conversion is `numToString`: the canonical
  shortest decimal form for rationals with finite decimal expansion (which is
  what `String(x)` produces for such values), with a deterministic fallback
  for other rationals.
* Fallible array accesses (`after.styleText` when `after` is `undefined`)
  are modelled with `Option`: `dnaGet` returns `none` exactly where the
  source would throw a `TypeError`.
-/

/-- Convert a Lean string literal to the `List Char` representation used
throughout this development. -/
def toL (s : String) : List Char := s.data

/-- Whitespace for the purposes of `$.trim`, `split(/\s+/)` and `parseFloat`. -/
def isWsChar (c : Char) : Bool := c = ' ' ∨ c = '\t' ∨ c = '\n' ∨ c = '\r'

/-- The characters `,`, `(`, `:` whose surrounding whitespace is removed by
`parallaxNames.replace(/\s*([,(:])\s*/g, '$1')` in the `DnaAnim` constructor. -/
def isAttrPunct (c : Char) : Bool := c = ',' ∨ c = '(' ∨ c = ':'

/-- The characters `,`, `(`, `)` that `parseRule` turns into spaces when
tokenising one modifier (`mod.replace(/[,()]+/g, ' ')`). -/
def isModPunct (c : Char) : Bool := c = ',' ∨ c = '(' ∨ c = ')'

/-- A token of a raw CSS value string: either a single non-numeric character
or one maximal match of the numeric-literal regex `[+-]?[0-9]+(\.[0-9]+)?`. -/
inductive Tok where
  | lit (c : Char)
  | num (s : List Char)
deriving DecidableEq

/-- Match the sign-free part `[0-9]+(\.[0-9]+)?` of the numeric regex at the
head of `l`; returns the matched characters and the rest. Digits are consumed
greedily and a fractional part is taken only when a digit follows the dot,
exactly as the regex backtracks. -/
def numTail (l : List Char) : Option (List Char × List Char) :=
  let ds := l.takeWhile Char.isDigit
  let r2 := l.dropWhile Char.isDigit
  if ds.isEmpty then none
  else
    match r2 with
    | '.' :: r3 =>
      let fs := r3.takeWhile Char.isDigit
      if fs.isEmpty then some (ds, r2)
      else some (ds ++ '.' :: fs, r3.dropWhile Char.isDigit)
    | _ => some (ds, r2)

/-- Match the full numeric regex `[+-]?[0-9]+(\.[0-9]+)?` at the head of `l`.
A sign is consumed only when digits follow it (otherwise the regex attempt at
this position fails, as in JavaScript). -/
def matchNumAt : List Char → Option (List Char × List Char)
  | [] => none
  | c :: rest =>
    if c = '+' ∨ c = '-' then
      match numTail rest with
      | some (m, r) => some (c :: m, r)
      | none => none
    else numTail (c :: rest)

/-- Fuelled global scan: repeated leftmost matching of the numeric regex, as
`String.prototype.match` / `String.prototype.replace` with the `g` flag do.
The fuel `l.length` always suffices because every step consumes at least one
character. -/
def lexTokensF : Nat → List Char → List Tok
  | 0, _ => []
  | _ + 1, [] => []
  | fu + 1, c :: rest =>
    match matchNumAt (c :: rest) with
    | some (m, r) => Tok.num m :: lexTokensF fu r
    | none => Tok.lit c :: lexTokensF fu rest

/-- Tokenise a raw value string into literal characters and numeric matches. -/
def lexTokens (l : List Char) : List Tok := lexTokensF l.length l

/-- Value of a digit string, most significant digit first. -/
def digitsToNat (ds : List Char) : Nat :=
  ds.foldl (fun a c => a * 10 + (c.toNat - 48)) 0

/-- Exact rational value of an unsigned numeric literal `ddd` or `ddd.fff`
(the `parseFloat` of a regex match, idealised to exact decimal arithmetic). -/
def litCore (l : List Char) : ℚ :=
  let ip := l.takeWhile Char.isDigit
  let r := l.dropWhile Char.isDigit
  match r with
  | '.' :: fs =>
    (digitsToNat ip : ℚ) + (digitsToNat (fs.takeWhile Char.isDigit) : ℚ)
      / (10 : ℚ) ^ (fs.takeWhile Char.isDigit).length
  | _ => (digitsToNat ip : ℚ)

/-- Model of `parseFloat` of one full numeric-literal match, including its sign. -/
def litToQ : List Char → ℚ
  | '+' :: r => litCore r
  | '-' :: r => - litCore r
  | l => litCore l

/-- Pad a digit string with leading zeros up to length `k`. -/
def padZeros (k : Nat) (ds : List Char) : List Char :=
  List.replicate (k - ds.length) '0' ++ ds

/-- Least `k` with `d ∣ 10 ^ k`, when one exists (it is then at most `d`). -/
def decScale (d : Nat) : Option Nat :=
  (List.range (d + 1)).find? (fun k => decide (10 ^ k % d = 0))

/-- JavaScript `String(x)` for the rationals produced here: canonical decimal
form without a plus sign, leading zeros or trailing fractional zeros. For a
rational without finite decimal expansion (never produced by `parseFloat` on
a literal) a deterministic `num/den` fallback is used. -/
def numToString (q : ℚ) : List Char :=
  match decScale q.den with
  | some k =>
    let m := (q.num * ((10 ^ k : ℤ) / (q.den : ℤ))).natAbs
    let ip := m / 10 ^ k
    let fp := m % 10 ^ k
    (if q.num < 0 then ['-'] else []) ++ Nat.toDigits 10 ip
      ++ (if k = 0 then [] else '.' :: padZeros k (Nat.toDigits 10 fp))
  | none =>
    (if q.num < 0 then ['-'] else []) ++ Nat.toDigits 10 q.num.natAbs
      ++ '/' :: Nat.toDigits 10 q.den

/-- The numeric matches of a raw value string, in left-to-right order. -/
def numToks (s : List Char) : List (List Char) :=
  (lexTokens s).filterMap (fun t => match t with
    | Tok.num m => some m
    | Tok.lit _ => none)

/-- The template of a raw value string: every numeric match replaced by the
placeholder `@`, all other characters kept (`styleText.replace(re, '@')`). -/
def tmplOf (s : List Char) : List Char :=
  ((lexTokens s).map (fun t => match t with
    | Tok.num _ => ['@']
    | Tok.lit c => [c])).flatten

/-- One keyframe value of `DnaProp.list`: the object built by
`DnaProp.prototype.add` from a progress key and a raw style text. -/
structure Entry where
  progress : ℚ
  styleText : List Char
  values : List ℚ
  template : List Char
deriving DecidableEq

/-- Build the entry object of `DnaProp.prototype.add`. -/
def mkEntry (p : ℚ) (s : List Char) : Entry :=
  { progress := p
    styleText := s
    values := (numToks s).map litToQ
    template := tmplOf s }

/-- The overwrite loop of `add`: replace the first entry whose progress
equals `p` and return the updated list (`some`), or report that no entry
matched (`none`, after which the source pushes and sorts). -/
def addLoop : List Entry → ℚ → Entry → Option (List Entry)
  | [], _, _ => none
  | e :: rest, p, obj =>
    if e.progress = p then some (obj :: rest)
    else (addLoop rest p obj).map (fun r => e :: r)

/-- Stable insertion into a progress-sorted list (helper for `sortEntries`). -/
def insEntry (e : Entry) : List Entry → List Entry
  | [] => [e]
  | x :: xs => if e.progress ≤ x.progress then e :: x :: xs else x :: insEntry e xs

/-- Model of `Array.prototype.sort` with comparator `a.progress - b.progress`,
modelled as stable insertion sort (on the unique-key lists produced by `add`
every comparator-correct sort yields this same result). -/
def sortEntries : List Entry → List Entry
  | [] => []
  | x :: xs => insEntry x (sortEntries xs)

/-- Source function `DnaProp.prototype.add`: build the entry; overwrite in
place when an entry with the same progress exists, otherwise push and
re-sort. -/
def addEntry (l : List Entry) (p : ℚ) (s : List Char) : List Entry :=
  let obj := mkEntry p s
  match addLoop l p obj with
  | some l2 => l2
  | none => sortEntries (l ++ [obj])

/-- Result of the keyframe-search loop in `DnaProp.prototype.get`. -/
inductive ScanOut where
  | hit (s : List Char)
  | ba (b : Option Entry) (a : Option Entry)
deriving DecidableEq

/-- The search loop of `get`: walk the list in order; on an exact progress
match return the raw style text; keep the last entry below as `before`; stop
at the first entry above as `after`. -/
def scanList : List Entry → ℚ → Option Entry → ScanOut
  | [], _, b => ScanOut.ba b none
  | kf :: rest, p, b =>
    if kf.progress = p then ScanOut.hit kf.styleText
    else if kf.progress < p then scanList rest p (some kf)
    else ScanOut.ba b (some kf)

/-- Source function `DnaProp.prototype.fixValue`: a property whose name ends in `color` gets
`1` for a missing 4th numeric component (the implicit alpha channel);
otherwise no fixup (`undefined`). -/
def fixValue (name : List Char) (i : Nat) : Option ℚ :=
  if (toL ("color")).reverse.isPrefixOf name.reverse ∧ i = 3 then some 1 else none

/-- Replace the first occurrence of `@` by `r` (`template.replace('@', r)`);
identity when no `@` remains. -/
def replaceFirstAt : List Char → List Char → List Char
  | [], _ => []
  | c :: rest, r => if c = '@' then r ++ rest else c :: replaceFirstAt rest r

/-- The interpolation loop of `get` between `before` and `after`: positions
`0 .. max(len after.values, len before.values) - 1`; a missing value is fixed
by `fixValue(i) || otherSide` (where for `val2` the other side is the already
fixed `val1`); each `val1 + (val2 - val1) * ratio` replaces the next `@` of
`before.template`. -/
def interpolate (name : List Char) (b a : Entry) (p : ℚ) : List Char :=
  let rr := (p - b.progress) / (a.progress - b.progress)
  let mi := max a.values.length b.values.length
  (List.range mi).foldl (fun t i =>
    let v1raw := b.values.get? i
    let v2raw := a.values.get? i
    let v1 := match v1raw with
      | some v => v
      | none =>
        match fixValue name i with
        | some f => f
        | none => v2raw.getD 0
    let v2 := match v2raw with
      | some v => v
      | none =>
        match fixValue name i with
        | some f => f
        | none => v1
    replaceFirstAt t (numToString (v1 + (v2 - v1) * rr))) b.template

/-- Source function `DnaProp.prototype.get`. Here `none` models the `TypeError` the source throws
when both `before` and `after` are `undefined` (empty list) and it reads
`after.styleText`. -/
def dnaGet (name : List Char) (l : List Entry) (p : ℚ) : Option (List Char) :=
  if 1 < p ∨ p < 0 then some []
  else
    match scanList l p none with
    | ScanOut.hit s => some s
    | ScanOut.ba none none => none
    | ScanOut.ba none (some a) => some a.styleText
    | ScanOut.ba (some b) none => some b.styleText
    | ScanOut.ba (some b) (some a) => some (interpolate name b a p)

/-- Strip leading and trailing whitespace (`$.trim`). -/
def trimWs (l : List Char) : List Char :=
  ((l.dropWhile isWsChar).reverse.dropWhile isWsChar).reverse

/-- Fuelled word splitter for `split(/\s+/)` on a trimmed string. -/
def wordsOfF : Nat → List Char → List (List Char)
  | 0, _ => []
  | _ + 1, [] => []
  | fu + 1, c :: rest =>
    if isWsChar c then wordsOfF fu rest
    else (c :: rest.takeWhile (fun d => !isWsChar d))
      :: wordsOfF fu (rest.dropWhile (fun d => !isWsChar d))

/-- Model of `split(/\s+/)` on a trimmed string. On the empty string JavaScript
returns `[""]`. -/
def splitWs (l : List Char) : List (List Char) :=
  if l.isEmpty then [[]] else wordsOfF l.length l

/-- Fuelled scanner for `replace(/\s*([,(:])\s*/g, '$1')`: a whitespace run is
deleted when it touches one of `,`, `(`, `:` on either side; `ap` records
that the previously emitted character was such a punctuation character. -/
def squeezeWsF : Nat → Bool → List Char → List Char
  | 0, _, _ => []
  | _ + 1, _, [] => []
  | fu + 1, ap, c :: rest =>
    if isWsChar c then
      let rest2 := rest.dropWhile isWsChar
      if ap || (match rest2 with
        | d :: _ => isAttrPunct d
        | [] => false) then squeezeWsF fu ap rest2
      else (c :: rest.takeWhile isWsChar) ++ squeezeWsF fu false rest2
    else c :: squeezeWsF fu (isAttrPunct c) rest

/-- Model of `parallaxNames.replace(/\s*([,(:])\s*/g, '$1')`. -/
def squeezeAttr (l : List Char) : List Char := squeezeWsF l.length false l

/-- The tokens of the `parallax` attribute:
`$.trim(parallaxNames.replace(...)).split(/\s+/)`. -/
def tokenizeAttr (attr : List Char) : List (List Char) :=
  splitWs (trimWs (squeezeAttr attr))

/-- Fuelled `String.prototype.split` on a single separator character. -/
def splitOnCharF : Nat → Char → List Char → List (List Char)
  | 0, _, l => [l]
  | _ + 1, _, [] => [[]]
  | fu + 1, s, c :: rest =>
    if c = s then [] :: splitOnCharF fu s rest
    else
      match splitOnCharF fu s rest with
      | [] => [[c]]
      | w :: ws => (c :: w) :: ws

/-- Model of `String.prototype.split(sep)` for a one-character separator. -/
def splitOnChar (s : Char) (l : List Char) : List (List Char) :=
  splitOnCharF l.length s l

/-- Does `pat` occur as a contiguous substring (`String.prototype.match` with
a plain-text pattern such as `/:debugger/`)? -/
def strHasSub (pat : List Char) : List Char → Bool
  | [] => pat.isEmpty
  | c :: rest => pat.isPrefixOf (c :: rest) || strHasSub pat rest

/-- The animation name of one attribute token (`modifiers.shift()` after
`split(':')`). -/
def nameOf (tok : List Char) : List Char := (splitOnChar ':' tok).headD []

/-- The modifier strings of one attribute token (what remains after the name
is shifted off). -/
def modsOf (tok : List Char) : List (List Char) := (splitOnChar ':' tok).tail

/-- Model of `parseFloat`, restricted to the literal shapes the engine feeds it:
leading whitespace skipped, then a longest `[+-]?[0-9]+(\.[0-9]+)?` prefix
(`none` models `NaN`; exponents and bare-dot forms do not occur here). -/
def jsParseFloat (l : List Char) : Option ℚ :=
  match matchNumAt (l.dropWhile isWsChar) with
  | some (m, _) => some (litToQ m)
  | none => none

/-- Tokenise one modifier: `$.trim(mod.replace(/[,()]+/g, ' ')).split(/\s+/)`,
e.g. `scale(1.3,2)` becomes `["scale", "1.3", "2"]`. -/
def splitMod (m : List Char) : List (List Char) :=
  splitWs (trimWs (m.map (fun c => if isModPunct c then ' ' else c)))

/-- Apply one tokenised modifier to a progress value, as the `switch` in
`parseRule` does. `none` models a `NaN` progress (it propagates through the
arithmetic); `shift` with a missing argument uses `0`, `scale` uses `1`;
`debugger` and unknown modifiers leave the progress unchanged (the latter is
logged in the source). -/
def applyModTok (p : Option ℚ) (mod : List (List Char)) : Option ℚ :=
  let nm := mod.headD []
  if nm = toL ("reverse") then p.map (fun q => 1 - q)
  else if nm = toL ("shift") then
    match mod.get? 1 with
    | none => p.map (fun q => q + 0 / 100)
    | some a =>
      match jsParseFloat a with
      | some x => p.map (fun q => q + x / 100)
      | none => none
  else if nm = toL ("scale") then
    match mod.get? 1 with
    | none => p.map (fun q => q * 1)
    | some a =>
      match jsParseFloat a with
      | some x => p.map (fun q => q * x)
      | none => none
  else p

/-- Apply a whole raw modifier list (the strings after the name in one
attribute token) to a progress value, cumulatively left to right. -/
def applyModChain (p : ℚ) (raw : List (List Char)) : Option ℚ :=
  (raw.map splitMod).foldl applyModTok (some p)

/-- One keyframe block of a `CSSKeyframesRule`: its serialized key text
(e.g. `"0%, 50%"`) and its style declarations. A `CSSStyleDeclaration` has
unique property names, so iterating indices `kf.style[j]` and looking each
name up with `kf.style[name]` is iteration over name/value pairs in order. -/
structure Keyframe where
  keyText : List Char
  style : List (List Char × List Char)
deriving DecidableEq

/-- A `@keyframes` rule as the engine consumes it. -/
structure Rule where
  cssRules : List Keyframe
deriving DecidableEq

/-- One animated property: `DnaProp` (name plus keyframe entry list). -/
structure DnaProp where
  name : List Char
  list : List Entry
deriving DecidableEq

/-- Model of `keyText.replace(/[^0-9%.,]+/g, '')`. -/
def cleanKey (l : List Char) : List Char :=
  l.filter (fun c => c.isDigit ∨ c = '%' ∨ c = '.' ∨ c = ',')

/-- The progress fractions of one keyframe block:
`keyText.replace(/[^0-9%.,]+/g, '').split(',')`, each `parseFloat(...)/100`.
`none` entries model `NaN` (a key text with no digits), which is outside the
rational idealisation. -/
def keyProgresses (kf : Keyframe) : List (Option ℚ) :=
  (splitOnChar ',' (cleanKey kf.keyText)).map
    (fun s => (jsParseFloat s).map (fun q => q / 100))

/-- The body of `namedProps[propName].add(progress, kf.style[propName])`
together with the lazy `DnaProp` creation: update the named property in the
ordered `props` array, creating and appending it when absent. -/
def addPropTo : List DnaProp → List Char → ℚ → List Char → List DnaProp
  | [], n, p, v => [{ name := n, list := addEntry [] p v }]
  | dp :: rest, n, p, v =>
    if dp.name = n then { dp with list := addEntry dp.list p v } :: rest
    else dp :: addPropTo rest n p v

/-- Source function `DnaAnim.prototype.parseRule`: for every keyframe block, every progress
key of the block and every style declaration, apply the modifiers to the
progress and add the value to the property's timeline. Keyframes whose key
text parses to `NaN` (and progresses turned `NaN` by a malformed modifier
argument) would poison every comparison in the source; they are omitted here
as outside the rational idealisation. -/
def parseRule (props : List DnaProp) (rule : Rule) (modifiers : List (List Char)) :
    List DnaProp :=
  rule.cssRules.foldl (fun ps kf =>
    (keyProgresses kf).foldl (fun ps2 p0 =>
      match (modifiers.map splitMod).foldl applyModTok p0 with
      | none => ps2
      | some p =>
        kf.style.foldl (fun ps3 pr => addPropTo ps3 pr.1 p pr.2) ps2) ps) props

/-- Resolution of an animation name against the currently available
`@keyframes` rules. The source scans `document.styleSheets` (an external
browser collaborator) and memoises hits in the `allRules` cache; both are
modelled by one name-to-rule environment. -/
def resolveRule (env : List (List Char × Rule)) (nm : List Char) : Option Rule :=
  (env.find? (fun pr => decide (pr.1 = nm))).map (fun pr => pr.2)

/-- Message `"Cannot find animation " + JSON.stringify(name)` (string escaping of
exotic name characters is not modelled). -/
def missingMsg (nm : List Char) : List Char :=
  toL ("Cannot find animation ") ++ '"' :: (nm ++ ['"'])

/-- The token loop of the `DnaAnim` constructor: skip tokens containing
`:debugger`; resolve each remaining token's name and parse its rule; throw
(`Except.error`, discarding all accumulated state) when resolution fails. -/
def dnaAnimGo (env : List (List Char × Rule)) :
    List DnaProp → List (List Char) → Except (List Char) (List DnaProp)
  | props, [] => Except.ok props
  | props, tok :: toks =>
    if strHasSub (toL (":debugger")) tok then dnaAnimGo env props toks
    else
      match resolveRule env (nameOf tok) with
      | some rule => dnaAnimGo env (parseRule props rule (modsOf tok)) toks
      | none => Except.error (missingMsg (nameOf tok))

/-- Constructor `new DnaAnim(parallaxAttribute)`: tokenize the attribute and run the
token loop, producing the ordered property timelines or the thrown error. -/
def dnaAnimAttr (env : List (List Char × Rule)) (attr : List Char) :
    Except (List Char) (List DnaProp) :=
  dnaAnimGo env [] (tokenizeAttr attr)

/-- Model of `Math.round`, on rationals: the integer nearest to `q`, halves toward
positive infinity (`Rat.floor` is used so the definition evaluates). -/
def jsRound (q : ℚ) : ℤ := (q + 1 / 2).floor

/-- The executable `Rat.floor` agrees with the floor of the archimedean order
structure on `ℚ`. -/
theorem jsRound_eq_floor (q : ℚ) : jsRound q = ⌊q + 1 / 2⌋ := by
  rw [jsRound, Rat.floor_def', ← Rat.floor_def]

/-- Source function `DnaParallax.prototype.calculateProgress`, on the geometry inputs the
source reads from its external collaborators: returns
`(this.progress, this.realProgress)` — the raw ratio rounded to six decimal
digits, and that value clamped to `[0, 1]`. -/
def calculateProgress (containerTop containerHeight viewHeight viewTop : ℚ) :
    ℚ × ℚ :=
  let progress0 := containerTop - viewHeight
  let progress100 := containerTop + containerHeight
  let pr := (viewTop - progress0) / (progress100 - progress0)
  let realP := (jsRound (pr * 1000000) : ℚ) / 1000000
  let norm := if 1 < realP then 1 else if realP < 0 then 0 else realP
  (norm, realP)

/-- Substitution of one string per placeholder, in left-to-right order
(formalising the round-trip law of the ValueTemplate data model): literal
characters are kept, each placeholder consumes the next string, placeholders
beyond the strings stay as `@`, strings beyond the placeholders are unused. -/
def substTok : List Tok → List (List Char) → List Char
  | [], _ => []
  | Tok.lit c :: ts, ss => c :: substTok ts ss
  | Tok.num _ :: ts, [] => '@' :: substTok ts []
  | Tok.num _ :: ts, s :: ss => s ++ substTok ts ss

/-- Written from the spec's words for the interval step of `valueAt`
(refinement target of claim C3): the fallback for a position where one side
has no number — `1` for the 4th component of a property whose name ends in
`color`, otherwise the other side's value. -/
def missingDefault (name : List Char) (i : Nat) (other : Option ℚ) : ℚ :=
  if (toL ("color")).reverse.isPrefixOf name.reverse ∧ i = 3 then 1
  else other.getD 0

/-- Written from the spec's words (refinement target of claim C3): walk the
numeric positions `0 .. max(len before.numbers, len after.numbers) - 1`,
default a missing side via `missingDefault`, linearly interpolate
`before + (after - before) * ratio` at each position, and substitute the
results into the placeholders of before's template in order. -/
def interpSpecSide (name : List Char) (b a : Entry) (p : ℚ) : List Char :=
  let rr := (p - b.progress) / (a.progress - b.progress)
  let mi := max b.values.length a.values.length
  let nums := (List.range mi).map (fun i =>
    let bv := match b.values.get? i with
      | some v => v
      | none => missingDefault name i (a.values.get? i)
    let av := match a.values.get? i with
      | some v => v
      | none => missingDefault name i (some bv)
    bv + (av - bv) * rr)
  nums.foldl (fun t x => replaceFirstAt t (numToString x)) b.template

/-- String content of one token. -/
def tokStr : Tok → List Char
  | Tok.lit c => [c]
  | Tok.num m => m

/-- Concatenation of the token contents (reconstructs the lexed string). -/
def tokFlat (ts : List Tok) : List Char := (ts.map tokStr).flatten

/-- The numeric matches among a token list. -/
def tokNums (ts : List Tok) : List (List Char) :=
  ts.filterMap (fun t => match t with
    | Tok.num m => some m
    | Tok.lit _ => none)

/-- A successful `numTail` match splits its input and is nonempty. -/
theorem numTail_spec {l m r : List Char} (h : numTail l = some (m, r)) :
    m ++ r = l ∧ m ≠ [] := by
  simp only [numTail] at h
  by_cases hd : (l.takeWhile Char.isDigit).isEmpty
  · rw [if_pos hd] at h
    exact absurd h (by simp)
  · rw [if_neg hd] at h
    have hne : l.takeWhile Char.isDigit ≠ [] := by
      simpa [List.isEmpty_iff] using hd
    have hl : l.takeWhile Char.isDigit ++ l.dropWhile Char.isDigit = l :=
      List.takeWhile_append_dropWhile Char.isDigit l
    split at h
    · next c r3 heq =>
      split at h
      · simp only [Option.some_inj, Prod.mk.injEq] at h
        obtain ⟨rfl, rfl⟩ := h
        constructor
        · exact hl
        · exact hne
      · simp only [Option.some_inj, Prod.mk.injEq] at h
        obtain ⟨rfl, rfl⟩ := h
        constructor
        · have h3 : r3.takeWhile Char.isDigit ++ r3.dropWhile Char.isDigit = r3 :=
            List.takeWhile_append_dropWhile Char.isDigit r3
          rw [List.append_assoc, List.cons_append, h3, ← heq]
          exact hl
        · simp [hne]
    · next heq =>
      simp only [Option.some_inj, Prod.mk.injEq] at h
      obtain ⟨rfl, rfl⟩ := h
      exact ⟨hl, hne⟩

/-- A successful regex match splits its input and is nonempty. -/
theorem matchNumAt_spec {l m r : List Char} (h : matchNumAt l = some (m, r)) :
    m ++ r = l ∧ m ≠ [] := by
  match l with
  | [] => exact absurd h (by simp [matchNumAt])
  | c :: rest =>
    simp only [matchNumAt] at h
    by_cases hs : c = '+' ∨ c = '-'
    · rw [if_pos hs] at h
      cases hnt : numTail rest with
      | none => rw [hnt] at h; exact absurd h (by simp)
      | some mr =>
        obtain ⟨m0, r0⟩ := mr
        rw [hnt] at h
        simp only [Option.some_inj, Prod.mk.injEq] at h
        obtain ⟨rfl, rfl⟩ := h
        obtain ⟨h1, _⟩ := numTail_spec hnt
        exact ⟨by simp [h1], by simp⟩
    · rw [if_neg hs] at h
      exact numTail_spec h

/-- With enough fuel, flattening the token scan reproduces the input. -/
theorem lexTokensF_flat : ∀ fu l, l.length ≤ fu → tokFlat (lexTokensF fu l) = l := by
  intro fu
  induction fu with
  | zero =>
    intro l hl
    rw [List.length_eq_zero.mp (Nat.le_zero.mp hl)]
    rfl
  | succ fu ih =>
    intro l hl
    match l with
    | [] => rfl
    | c :: rest =>
      rw [lexTokensF]
      cases hm : matchNumAt (c :: rest) with
      | none =>
        have : tokFlat (Tok.lit c :: lexTokensF fu rest) = c :: tokFlat (lexTokensF fu rest) := by
          simp [tokFlat, tokStr]
        rw [this, ih rest (Nat.le_of_succ_le_succ hl)]
      | some mr =>
        obtain ⟨m, r⟩ := mr
        obtain ⟨hsplit, hne⟩ := matchNumAt_spec hm
        have hr : r.length ≤ fu := by
          have hlen : m.length + r.length = rest.length + 1 := by
            have := congrArg List.length hsplit
            simpa using this
          have hm1 : 1 ≤ m.length := by
            cases m with
            | nil => exact absurd rfl hne
            | cons a as => simp
          simp only [List.length_cons] at hl
          omega
        have : tokFlat (Tok.num m :: lexTokensF fu r) = m ++ tokFlat (lexTokensF fu r) := by
          simp [tokFlat, tokStr]
        rw [this, ih r hr, hsplit]

/-- Flattening the tokenisation of `s` gives back `s`. -/
theorem lexTokens_flat (s : List Char) : tokFlat (lexTokens s) = s :=
  lexTokensF_flat s.length s (Nat.le_refl _)

/-- Substituting each numeric match back into its own placeholder rebuilds
the token list's flattening. -/
theorem substTok_self : ∀ ts : List Tok, substTok ts (tokNums ts) = tokFlat ts := by
  intro ts
  induction ts with
  | nil => rfl
  | cons t ts ih =>
    cases t with
    | lit c =>
      have h1 : tokNums (Tok.lit c :: ts) = tokNums ts := by simp [tokNums]
      have h2 : tokFlat (Tok.lit c :: ts) = c :: tokFlat ts := by simp [tokFlat, tokStr]
      rw [h2, substTok, h1, ih]
    | num m =>
      have h1 : tokNums (Tok.num m :: ts) = m :: tokNums ts := by simp [tokNums]
      have h2 : tokFlat (Tok.num m :: ts) = m ++ tokFlat ts := by simp [tokFlat, tokStr]
      rw [h1, h2, substTok, ih]

/-- Mapping a function that fixes every member is the identity. -/
theorem map_self_of_mem {α : Type} {l : List α} {f : α → α}
    (h : ∀ a ∈ l, f a = a) : l.map f = l := by
  induction l with
  | nil => rfl
  | cons x xs ih =>
    rw [List.map_cons, h x (by simp), ih (fun a ha => h a (by simp [ha]))]

/-- Claim C1 (amended): for a ValueTemplate built by `add` from a raw value
whose numeric literals are all canonically formatted (no plus sign, no
leading zeros, no trailing fractional zeros — i.e. each literal equals the
rendering of its own parsed value), substituting the extracted numbers back
into the template, one per placeholder in left-to-right order, reproduces
the raw string exactly. -/
theorem dnaC1 (p : ℚ) (s : List Char)
    (hc : ∀ m ∈ numToks s, numToString (litToQ m) = m) :
    substTok (lexTokens s) ((mkEntry p s).values.map numToString) = s := by
  have h1 : (mkEntry p s).values.map numToString
      = (numToks s).map (fun m => numToString (litToQ m)) := by
    simp [mkEntry, List.map_map]
  rw [h1, map_self_of_mem hc,
    show numToks s = tokNums (lexTokens s) from rfl, substTok_self]
  exact lexTokens_flat s

/-- Witness for C1 on the canonical raw value `3px`. -/
theorem dnaC1_wit :
    substTok (lexTokens (toL ("3px")))
      ((mkEntry 0 (toL ("3px"))).values.map numToString) = toL ("3px") :=
  dnaC1 0 (toL ("3px")) (by decide)

/-- Counterexample to C1 as stated: the raw value `+1px` parses its numeral
to the number `1`, and substituting the numbers back into the template gives
`1px`, not the original string — the plus sign is lost. -/
theorem dnaC1_counter :
    substTok (lexTokens (toL ("+1px")))
        ((mkEntry 0 (toL ("+1px"))).values.map numToString) = toL ("1px")
    ∧ toL ("1px") ≠ toL ("+1px") := by
  decide

deriving instance DecidableEq for Except

/-- Claim C7: in the evaluation mode with value suppression, any query
progress strictly outside `[0, 1]` makes `get` return the empty string
(signalling that the property is to be unset) instead of clamping to the
nearest keyframe. -/
theorem dnaC7 (name : List Char) (l : List Entry) (p : ℚ)
    (h : 1 < p ∨ p < 0) : dnaGet name l p = some [] := by
  unfold dnaGet
  rw [if_pos h]

/-- Witness for C7 at a concrete out-of-range progress. -/
theorem dnaC7_wit :
    dnaGet (toL ("left")) [mkEntry 0 (toL ("0px"))] 2 = some [] :=
  dnaC7 (toL ("left")) [mkEntry 0 (toL ("0px"))] 2 (by norm_num)

/-- Claim C5: the progress calculation computes the raw ratio
`(scrollTop - (top - viewHeight)) / ((top + height) - (top - viewHeight))`,
rounds it to six fractional decimal digits giving the real progress, and
clamps that to `[0, 1]` giving the normalized progress; on the concrete
geometry top = 1000, height = 200, viewHeight = 800, scrollTop = 400 the
normalized progress is `0.2`. -/
theorem dnaC5 (ct ch vh vt : ℚ) (h : ct + ch ≠ ct - vh) :
    (calculateProgress ct ch vh vt).2
        = (jsRound ((vt - (ct - vh)) / ((ct + ch) - (ct - vh)) * 1000000) : ℚ)
            / 1000000
    ∧ (∃ n : ℤ, (calculateProgress ct ch vh vt).2 = (n : ℚ) / 1000000)
    ∧ |(calculateProgress ct ch vh vt).2
          - (vt - (ct - vh)) / ((ct + ch) - (ct - vh))| ≤ 1 / 2000000
    ∧ (calculateProgress ct ch vh vt).1
        = (if 1 < (calculateProgress ct ch vh vt).2 then 1
           else if (calculateProgress ct ch vh vt).2 < 0 then 0
           else (calculateProgress ct ch vh vt).2)
    ∧ calculateProgress 1000 200 800 400 = (1/5, 1/5) := by
  refine ⟨rfl, ⟨jsRound ((vt - (ct - vh)) / ((ct + ch) - (ct - vh)) * 1000000), rfl⟩,
    ?_, rfl, ?_⟩
  case refine_2 =>
    have harg : ((400 : ℚ) - (1000 - 800)) / (1000 + 200 - (1000 - 800)) * 1000000
        = 200000 := by norm_num
    have hfloor :
        jsRound (((400 : ℚ) - (1000 - 800)) / (1000 + 200 - (1000 - 800)) * 1000000)
          = 200000 := by
      rw [jsRound_eq_floor, harg, Int.floor_eq_iff]
      constructor
      · norm_num
      · norm_num
    simp only [calculateProgress]
    rw [hfloor]
    norm_num
  show |(jsRound ((vt - (ct - vh)) / ((ct + ch) - (ct - vh)) * 1000000) : ℚ) / 1000000
      - (vt - (ct - vh)) / ((ct + ch) - (ct - vh))| ≤ 1 / 2000000
  set x : ℚ := (vt - (ct - vh)) / ((ct + ch) - (ct - vh)) with hx
  rw [jsRound_eq_floor]
  have h1 : (⌊x * 1000000 + 1 / 2⌋ : ℚ) ≤ x * 1000000 + 1 / 2 :=
    Int.floor_le (x * 1000000 + 1 / 2)
  have h2 : x * 1000000 - 1 / 2 ≤ (⌊x * 1000000 + 1 / 2⌋ : ℚ) := by
    have := Int.lt_floor_add_one (x * 1000000 + 1 / 2)
    push_cast at this ⊢
    linarith
  have key : |(⌊x * 1000000 + 1 / 2⌋ : ℚ) - x * 1000000| ≤ 1 / 2 :=
    abs_le.mpr ⟨by linarith, by linarith⟩
  have hrw : (⌊x * 1000000 + 1 / 2⌋ : ℚ) / 1000000 - x
      = ((⌊x * 1000000 + 1 / 2⌋ : ℚ) - x * 1000000) / 1000000 := by ring
  rw [hrw, abs_div, show |(1000000 : ℚ)| = 1000000 from abs_of_pos (by norm_num),
    div_le_iff₀ (by norm_num : (0 : ℚ) < 1000000)]
  linarith [key]

/-- Witness for C5 at the concrete geometry of the claim. -/
theorem dnaC5_wit : calculateProgress 1000 200 800 400 = (1/5, 1/5) :=
  (dnaC5 1000 200 800 400 (by norm_num)).2.2.2.2

/-- Strictly-increasing-by-progress invariant of a timeline's entry list. -/
def sortedE (l : List Entry) : Prop :=
  List.Pairwise (fun x y : Entry => x.progress < y.progress) l

/-- On a sorted list, the search loop reports an exact hit for any member
whose progress equals the query, regardless of the accumulator. -/
theorem scan_hit : ∀ (l : List Entry) (p : ℚ) (b0 : Option Entry) (e : Entry),
    sortedE l → e ∈ l → e.progress = p →
    scanList l p b0 = ScanOut.hit e.styleText := by
  intro l
  induction l with
  | nil =>
    intro p b0 e _ he _
    exact absurd he (List.not_mem_nil e)
  | cons x rest ih =>
    intro p b0 e hs he hp
    rcases List.mem_cons.mp he with rfl | hmem
    · simp only [scanList, if_pos hp]
    · have hxe : x.progress < e.progress := (List.pairwise_cons.mp hs).1 e hmem
      have hxp : x.progress < p := hp ▸ hxe
      simp only [scanList, if_neg (ne_of_lt hxp), if_pos hxp]
      exact ih p (some x) e (List.pairwise_cons.mp hs).2 hmem hp

/-- Claim C2 (amended): on a strictly sorted timeline, `valueAt` at a
progress in `[0, 1]` that exactly equals an entry's key returns that entry's
raw value unchanged, bypassing interpolation, regardless of the other
entries. (Keys outside `[0, 1]` are instead suppressed by the range check,
see the counterexample.) -/
theorem dnaC2 (name : List Char) (l : List Entry) (e : Entry) (p : ℚ)
    (hs : sortedE l) (he : e ∈ l) (hp : e.progress = p)
    (h0 : 0 ≤ p) (h1 : p ≤ 1) :
    dnaGet name l p = some e.styleText := by
  unfold dnaGet
  rw [if_neg (by exact not_or.mpr ⟨not_lt.mpr h1, not_lt.mpr h0⟩),
    scan_hit l p none e hs he hp]

/-- Witness for C2: a keyframe stored at progress `0` is returned verbatim. -/
theorem dnaC2_wit :
    dnaGet (toL ("left")) [mkEntry 0 (toL ("7px"))] 0 = some (toL ("7px")) :=
  dnaC2 (toL ("left")) [mkEntry 0 (toL ("7px"))] (mkEntry 0 (toL ("7px"))) 0
    (List.pairwise_singleton _ _) (List.mem_singleton.mpr rfl) rfl
    (le_refl 0) (by norm_num)

/-- Counterexample to C2 as stated: an entry whose key lies outside `[0, 1]`
(the key `2` is produced e.g. by the modifier `scale(2)` from a keyframe at
`100%`) is not returned on an exact hit — the out-of-range check fires first
and yields the empty string. -/
theorem dnaC2_counter :
    applyModChain 1 [toL ("scale(2)")] = some 2
    ∧ (mkEntry 2 (toL ("9px"))) ∈ [mkEntry 2 (toL ("9px"))]
    ∧ (mkEntry 2 (toL ("9px"))).progress = 2
    ∧ dnaGet (toL ("x")) [mkEntry 2 (toL ("9px"))] 2 = some []
    ∧ (mkEntry 2 (toL ("9px"))).styleText ≠ [] := by
  refine ⟨?_, by decide, by decide, by decide, by decide⟩
  have h : applyModChain 1 [toL ("scale(2)")] = some ((1 : ℚ) * ((2 : ℕ) : ℚ)) := rfl
  rw [h]
  norm_num

/-- On a sorted decomposition `l1 ++ b :: a :: l2` with every `l1` key below
the query, `b` below and `a` above it, the search loop yields exactly
`(before, after) = (b, a)`. -/
theorem scan_between : ∀ (l1 : List Entry) (b a : Entry) (l2 : List Entry)
    (p : ℚ) (b0 : Option Entry),
    (∀ e ∈ l1, e.progress < p) → b.progress < p → p < a.progress →
    scanList (l1 ++ b :: a :: l2) p b0 = ScanOut.ba (some b) (some a) := by
  intro l1
  induction l1 with
  | nil =>
    intro b a l2 p b0 _ hb ha
    simp only [List.nil_append, scanList, if_neg (ne_of_lt hb), if_pos hb,
      if_neg (ne_of_gt ha), if_neg (not_lt.mpr (le_of_lt ha))]
  | cons x l1 ih =>
    intro b a l2 p b0 hall hb ha
    have hx : x.progress < p := hall x (by simp)
    simp only [List.cons_append, scanList, if_neg (ne_of_lt hx), if_pos hx]
    exact ih b a l2 p (some x) (fun e he => hall e (by simp [he])) hb ha

/-- The interpolation loop of the source equals the spec-side description
`interpSpecSide` (same positions, same fallbacks, same substitutions). -/
theorem interp_eq_spec (name : List Char) (b a : Entry) (p : ℚ) :
    interpolate name b a p = interpSpecSide name b a p := by
  simp only [interpolate, interpSpecSide]
  rw [List.foldl_map, Nat.max_comm a.values.length b.values.length]
  congr 1
  funext t i
  cases hb : b.values.get? i <;> cases ha : a.values.get? i <;>
    simp only [fixValue, missingDefault, Option.getD_some, Option.getD_none] <;>
    split_ifs <;> rfl

/-- Claim C3 (amended): for a query progress in `[0, 1]` lying strictly
between two adjacent entries of a sorted timeline, `valueAt` returns exactly
the spec-described interval interpolation: positions
`0 .. max(len before.numbers, len after.numbers) - 1`, missing values
defaulted (`1` for the 4th component of a `color`-suffixed property, else
the other side's value), each `before + (after - before) * ratio`
substituted into before's template placeholders in order. (For a query
outside `[0, 1]` the range check suppresses the value instead, see the
counterexample.) -/
theorem dnaC3 (name : List Char) (l l1 l2 : List Entry) (b a : Entry) (p : ℚ)
    (hs : sortedE l) (hl : l = l1 ++ b :: a :: l2)
    (hb : b.progress < p) (ha : p < a.progress) (h0 : 0 ≤ p) (h1 : p ≤ 1) :
    dnaGet name l p = some (interpSpecSide name b a p) := by
  subst hl
  have hall : ∀ e ∈ l1, e.progress < p := by
    intro e he
    have hlt := (List.pairwise_append.mp hs).2.2 e he b (by simp)
    exact lt_trans hlt hb
  unfold dnaGet
  rw [if_neg (not_or.mpr ⟨not_lt.mpr h1, not_lt.mpr h0⟩),
    scan_between l1 b a l2 p none hall hb ha]
  exact congrArg some (interp_eq_spec name b a p)

/-- Witness for C3 between entries at `0` and `1` queried at `1/2`. -/
theorem dnaC3_wit :
    dnaGet (toL ("left")) [mkEntry 0 (toL ("5px")), mkEntry 1 (toL ("5px"))] (1/2)
      = some (interpSpecSide (toL ("left")) (mkEntry 0 (toL ("5px")))
          (mkEntry 1 (toL ("5px"))) (1/2)) :=
  dnaC3 (toL ("left")) _ [] [] (mkEntry 0 (toL ("5px"))) (mkEntry 1 (toL ("5px")))
    (1/2) (by norm_num [sortedE, List.pairwise_cons, mkEntry]) rfl
    (by norm_num [mkEntry]) (by norm_num [mkEntry]) (by norm_num) (by norm_num)

/-- Counterexample to C3 as stated: two adjacent entries at keys `2` and `4`
with the query `3` strictly between them do not get interpolated — the
out-of-range check fires first and `valueAt` returns the empty string, while
the claimed interval computation yields `5px`. -/
theorem dnaC3_counter :
    sortedE [mkEntry 2 (toL ("5px")), mkEntry 4 (toL ("5px"))]
    ∧ (mkEntry 2 (toL ("5px"))).progress < 3
    ∧ (3 : ℚ) < (mkEntry 4 (toL ("5px"))).progress
    ∧ dnaGet (toL ("x")) [mkEntry 2 (toL ("5px")), mkEntry 4 (toL ("5px"))] 3
        = some []
    ∧ interpSpecSide (toL ("x")) (mkEntry 2 (toL ("5px")))
        (mkEntry 4 (toL ("5px"))) 3 = toL ("5px")
    ∧ ([] : List Char) ≠ toL ("5px") := by
  refine ⟨?_, by decide, by decide, by decide, ?_, by decide⟩
  · exact List.pairwise_cons.mpr ⟨by intro e he; rw [List.mem_singleton.mp he]; decide,
      List.pairwise_singleton _ _⟩
  · have hvals2 : (mkEntry 2 (toL ("5px"))).values = [litToQ (toL ("5"))] := rfl
    have hvals4 : (mkEntry 4 (toL ("5px"))).values = [litToQ (toL ("5"))] := rfl
    have htm : (mkEntry 2 (toL ("5px"))).template = toL ("@px") := rfl
    have hp2 : (mkEntry 2 (toL ("5px"))).progress = 2 := rfl
    have hp4 : (mkEntry 4 (toL ("5px"))).progress = 4 := rfl
    have hr1 : List.range 1 = [0] := rfl
    simp only [interpSpecSide, hvals2, hvals4, htm, hp2, hp4, List.length_singleton,
      Nat.max_self, hr1, List.map_cons, List.map_nil, List.foldl_cons,
      List.foldl_nil, List.get?_cons_zero]
    have hval : litToQ (toL ("5"))
        + (litToQ (toL ("5")) - litToQ (toL ("5"))) * ((3 - 2) / (4 - 2) : ℚ) = 5 := by
      rw [show litToQ (toL ("5")) = ((5 : ℕ) : ℚ) from rfl]
      push_cast
      ring
    rw [hval]
    decide

/-- A concrete rule for the keyframe-level part of claim C4: one keyframe at
`30%` setting `top: 1px`. -/
def c4Rule : Rule :=
  { cssRules := [{ keyText := toL ("30%"), style := [(toL ("top"), toL ("1px"))] }] }

/-- Claim C4: modifiers apply cumulatively left to right; `reverse` maps `p`
to `1 - p`, `shift(x)` to `p + x/100`, `scale(x)` to `p * x`; concretely
`reverse` sends `0.3` to `0.7`, `shift(10)` sends `0.2` to `0.3`, `scale(2)`
sends `0.25` to `0.5`; and `parseRule` stores the modifier-adjusted key for
every keyframe progress contributed by the rule. -/
theorem dnaC4 :
    (∀ (p : Option ℚ) (m : List (List Char)) (ms : List (List (List Char))),
        (m :: ms).foldl applyModTok p = ms.foldl applyModTok (applyModTok p m))
    ∧ (∀ q : ℚ, applyModTok (some q) [toL ("reverse")] = some (1 - q))
    ∧ (∀ (q x : ℚ) (s : List Char), jsParseFloat s = some x →
        applyModTok (some q) [toL ("shift"), s] = some (q + x / 100))
    ∧ (∀ (q x : ℚ) (s : List Char), jsParseFloat s = some x →
        applyModTok (some q) [toL ("scale"), s] = some (q * x))
    ∧ applyModChain (3/10) [toL ("reverse")] = some (7/10)
    ∧ applyModChain (2/10) [toL ("shift(10)")] = some (3/10)
    ∧ applyModChain (1/4) [toL ("scale(2)")] = some (1/2)
    ∧ parseRule [] c4Rule [toL ("reverse")]
        = [{ name := toL ("top"),
             list := [mkEntry (1 - litToQ (toL ("30")) / 100) (toL ("1px"))] }]
    ∧ 1 - litToQ (toL ("30")) / 100 = 7/10 := by
  refine ⟨fun p m ms => rfl, fun q => rfl, ?_, ?_, ?_, ?_, ?_, rfl, ?_⟩
  · intro q x s h
    rw [show applyModTok (some q) [toL ("shift"), s]
        = (match jsParseFloat s with
           | some x0 => some (q + x0 / 100)
           | none => none) from rfl, h]
  · intro q x s h
    rw [show applyModTok (some q) [toL ("scale"), s]
        = (match jsParseFloat s with
           | some x0 => some (q * x0)
           | none => none) from rfl, h]
  · rw [show applyModChain (3/10) [toL ("reverse")] = some (1 - 3/10) from rfl]
    norm_num
  · rw [show applyModChain (2/10) [toL ("shift(10)")]
        = some (2/10 + ((10 : ℕ) : ℚ) / 100) from rfl]
    norm_num
  · rw [show applyModChain (1/4) [toL ("scale(2)")]
        = some (1/4 * ((2 : ℕ) : ℚ)) from rfl]
    norm_num
  · rw [show litToQ (toL ("30")) = ((30 : ℕ) : ℚ) from rfl]
    norm_num

/-- Witness for C4: `shift` with the parsed argument `10` at progress `1/5`. -/
theorem dnaC4_wit :
    applyModTok (some (1/5)) [toL ("shift"), toL ("10")] = some (1/5 + 10 / 100) :=
  dnaC4.2.2.1 (1/5) 10 (toL ("10")) rfl

/-- First-match lookup of an entry by exact progress key (the observable the
exact-hit branch of `get` reads). -/
def findByKey : List Entry → ℚ → Option Entry
  | [], _ => none
  | e :: rest, p => if e.progress = p then some e else findByKey rest p

/-- Inserting an element bounded below by the whole list puts it in front. -/
theorem insEntry_head {x : Entry} : ∀ {m : List Entry},
    (∀ y ∈ m, x.progress ≤ y.progress) → insEntry x m = x :: m
  | [], _ => rfl
  | y :: ys, h => by
    simp only [insEntry, if_pos (h y (by simp))]

/-- Membership in an insertion. -/
theorem mem_insEntry {y e : Entry} : ∀ {m : List Entry},
    y ∈ insEntry e m ↔ y = e ∨ y ∈ m := by
  intro m
  induction m with
  | nil => simp [insEntry]
  | cons x xs ih =>
    simp only [insEntry]
    by_cases hc : e.progress ≤ x.progress
    · rw [if_pos hc]
      simp [or_comm, or_assoc, or_left_comm]
    · rw [if_neg hc]
      simp only [List.mem_cons, ih]
      tauto

/-- Sorting a sorted list with one fresh-keyed element appended is ordered
insertion of that element. -/
theorem sortEntries_app_one {obj : Entry} : ∀ {l : List Entry},
    sortedE l → (∀ e ∈ l, e.progress ≠ obj.progress) →
    sortEntries (l ++ [obj]) = insEntry obj l := by
  intro l
  induction l with
  | nil => intro _ _; rfl
  | cons x l ih =>
    intro hs hne
    have hx : ∀ y ∈ l, x.progress < y.progress := (List.pairwise_cons.mp hs).1
    have hlsort : sortedE l := (List.pairwise_cons.mp hs).2
    have hlne : ∀ e ∈ l, e.progress ≠ obj.progress := fun e he => hne e (by simp [he])
    have hxne : x.progress ≠ obj.progress := hne x (by simp)
    rw [List.cons_append, sortEntries, ih hlsort hlne]
    by_cases hc : obj.progress ≤ x.progress
    · have hlt : obj.progress < x.progress := lt_of_le_of_ne hc (Ne.symm hxne)
      have h1 : insEntry obj l = obj :: l := insEntry_head
        (fun y hy => le_of_lt (lt_trans hlt (hx y hy)))
      rw [h1]
      have h2 : insEntry x (obj :: l) = obj :: insEntry x l := by
        simp only [insEntry, if_neg (not_le.mpr hlt)]
      rw [h2, insEntry_head (fun y hy => le_of_lt (hx y hy))]
      simp only [insEntry, if_pos hc]
    · have hlt : x.progress < obj.progress := not_le.mp hc
      have h1 : insEntry x (insEntry obj l) = x :: insEntry obj l := by
        refine insEntry_head ?_
        intro y hy
        rcases mem_insEntry.mp hy with rfl | hyl
        · exact le_of_lt hlt
        · exact le_of_lt (hx y hyl)
      rw [h1]
      simp only [insEntry, if_neg hc]

/-- Lookup of the inserted key finds the inserted element when the key is
fresh. -/
theorem findByKey_insEntry_self {obj : Entry} {p : ℚ} (hobj : obj.progress = p) :
    ∀ {l : List Entry}, (∀ e ∈ l, e.progress ≠ p) →
    findByKey (insEntry obj l) p = some obj := by
  intro l
  induction l with
  | nil => simp [insEntry, findByKey, hobj]
  | cons x xs ih =>
    intro hne
    simp only [insEntry]
    by_cases hc : obj.progress ≤ x.progress
    · rw [if_pos hc]
      simp [findByKey, hobj]
    · rw [if_neg hc]
      simp only [findByKey, if_neg (hne x (by simp))]
      exact ih (fun e he => hne e (by simp [he]))

/-- Lookup of any other key is unchanged by the insertion. -/
theorem findByKey_insEntry_other (obj : Entry) (p q : ℚ)
    (hobj : obj.progress = p) (hq : q ≠ p) :
    ∀ (l : List Entry), findByKey (insEntry obj l) q = findByKey l q := by
  have hno : ¬ obj.progress = q := by
    intro h0
    exact hq (h0 ▸ hobj)
  intro l
  induction l with
  | nil => simp [insEntry, findByKey, hno]
  | cons x xs ih =>
    simp only [insEntry]
    by_cases hc : obj.progress ≤ x.progress
    · rw [if_pos hc]
      simp only [findByKey, if_neg hno]
    · rw [if_neg hc]
      simp only [findByKey, ih]

/-- The overwrite loop fails exactly on lists without the key. -/
theorem addLoop_eq_none_iff {p : ℚ} {obj : Entry} : ∀ {l : List Entry},
    addLoop l p obj = none ↔ ∀ e ∈ l, e.progress ≠ p := by
  intro l
  induction l with
  | nil => simp [addLoop]
  | cons x xs ih =>
    simp only [addLoop]
    by_cases hc : x.progress = p
    · rw [if_pos hc]
      simp [hc]
    · rw [if_neg hc]
      simp only [Option.map_eq_none', ih]
      constructor
      · intro h e he
        rcases List.mem_cons.mp he with rfl | hm
        · exact hc
        · exact h e hm
      · intro h e he
        exact h e (by simp [he])

/-- After a successful overwrite, lookup of the key finds the new object. -/
theorem findByKey_addLoop_self (p : ℚ) (obj : Entry) (hobj : obj.progress = p) :
    ∀ (l l2 : List Entry), addLoop l p obj = some l2 →
    findByKey l2 p = some obj := by
  intro l
  induction l with
  | nil => intro l2 h; exact absurd h (by simp [addLoop])
  | cons x xs ih =>
    intro l2 h
    simp only [addLoop] at h
    by_cases hc : x.progress = p
    · rw [if_pos hc, Option.some_inj] at h
      rw [← h]
      simp [findByKey, hobj]
    · rw [if_neg hc] at h
      cases hrec : addLoop xs p obj with
      | none => rw [hrec] at h; exact absurd h (by simp)
      | some r =>
        rw [hrec] at h
        simp only [Option.map_some', Option.some_inj] at h
        rw [← h]
        simp only [findByKey, if_neg hc]
        exact ih r hrec

/-- A successful overwrite leaves lookups of every other key unchanged. -/
theorem findByKey_addLoop_other (p q : ℚ) (obj : Entry)
    (hobj : obj.progress = p) (hq : q ≠ p) :
    ∀ (l l2 : List Entry), addLoop l p obj = some l2 →
    findByKey l2 q = findByKey l q := by
  have hno : ¬ obj.progress = q := by
    intro h0
    exact hq (h0 ▸ hobj)
  intro l
  induction l with
  | nil => intro l2 h; exact absurd h (by simp [addLoop])
  | cons x xs ih =>
    intro l2 h
    simp only [addLoop] at h
    by_cases hc : x.progress = p
    · have hnx : ¬ x.progress = q := by
        intro h0
        exact hq (h0 ▸ hc)
      rw [if_pos hc, Option.some_inj] at h
      rw [← h]
      simp only [findByKey, if_neg hno, if_neg hnx]
    · rw [if_neg hc] at h
      cases hrec : addLoop xs p obj with
      | none => rw [hrec] at h; exact absurd h (by simp)
      | some r =>
        rw [hrec] at h
        simp only [Option.map_some', Option.some_inj] at h
        rw [← h]
        simp only [findByKey, ih r hrec]

/-- The keyframes rule used in the merge scenario of claim C6: `color: v`
at `50%`. -/
def c6Rule (v : List Char) : Rule :=
  { cssRules := [{ keyText := toL ("50%"), style := [(toL ("color"), v)] }] }

/-- Two animation names defining `color` at the same progress key. -/
def c6Env : List (List Char × Rule) :=
  [(toL ("animA"), c6Rule (toL ("red"))), (toL ("animB"), c6Rule (toL ("blue")))]

/-- The shared progress key of the scenario (`50%`, i.e. one half). -/
def c6p : ℚ := litToQ (toL ("50")) / 100

/-- The element of the C6 scenario: constructing from `"animA animB"` keeps
only the later-listed animation's value at the shared key. -/
theorem c6_scenario :
    dnaAnimAttr c6Env (toL ("animA animB"))
      = Except.ok [{ name := toL ("color"),
                     list := [mkEntry c6p (toL ("blue"))] }] := by
  have h1 : dnaAnimAttr c6Env (toL ("animA animB"))
      = dnaAnimGo c6Env
          [{ name := toL ("color"), list := [mkEntry c6p (toL ("red"))] }]
          [toL ("animB")] := rfl
  have h2 : dnaAnimGo c6Env
      [{ name := toL ("color"), list := [mkEntry c6p (toL ("red"))] }]
      [toL ("animB")]
      = Except.ok (parseRule
          [{ name := toL ("color"), list := [mkEntry c6p (toL ("red"))] }]
          (c6Rule (toL ("blue"))) []) := rfl
  have h3 : parseRule
      [{ name := toL ("color"), list := [mkEntry c6p (toL ("red"))] }]
      (c6Rule (toL ("blue"))) []
      = [{ name := toL ("color"),
           list := addEntry [mkEntry c6p (toL ("red"))] c6p (toL ("blue")) }] := rfl
  have h4 : addEntry [mkEntry c6p (toL ("red"))] c6p (toL ("blue"))
      = [mkEntry c6p (toL ("blue"))] := by
    simp only [addEntry, addLoop,
      show (mkEntry c6p (toL ("red"))).progress = c6p from rfl, eq_self_iff_true,
      if_true]
  rw [h1, h2, h3, h4]

/-- Claim C6: on a sorted timeline, `add` makes the freshly built entry the
one retained at its progress key — the last writer for a property+progress
pair wins — and leaves every other key's entry untouched; concretely, two
animation names both defining `color` at `50%` leave the later-listed name's
value in the constructed timelines. -/
theorem dnaC6 (l : List Entry) (p : ℚ) (v : List Char) (hs : sortedE l) :
    (findByKey (addEntry l p v) p = some (mkEntry p v)
      ∧ ∀ q : ℚ, q ≠ p → findByKey (addEntry l p v) q = findByKey l q)
    ∧ dnaAnimAttr c6Env (toL ("animA animB"))
        = Except.ok [{ name := toL ("color"),
                       list := [mkEntry c6p (toL ("blue"))] }]
    ∧ c6p = 1/2 := by
  refine ⟨?_, c6_scenario, by rw [show c6p = ((50 : ℕ) : ℚ) / 100 from rfl]; norm_num⟩
  cases hloop : addLoop l p (mkEntry p v) with
  | some l2 =>
    have he : addEntry l p v = l2 := by
      simp only [addEntry, hloop]
    rw [he]
    exact ⟨findByKey_addLoop_self p (mkEntry p v) rfl l l2 hloop,
      fun q hq => findByKey_addLoop_other p q (mkEntry p v) rfl hq l l2 hloop⟩
  | none =>
    have hfresh : ∀ e ∈ l, e.progress ≠ p := addLoop_eq_none_iff.mp hloop
    have he : addEntry l p v = sortEntries (l ++ [mkEntry p v]) := by
      simp only [addEntry, hloop]
    rw [he, sortEntries_app_one hs hfresh]
    exact ⟨findByKey_insEntry_self rfl hfresh,
      fun q hq => findByKey_insEntry_other (mkEntry p v) p q rfl hq l⟩

/-- Witness for C6: overwriting the key `0` in a one-entry timeline retains
the second write's value. -/
theorem dnaC6_wit :
    findByKey (addEntry [mkEntry 0 (toL ("red"))] 0 (toL ("blue"))) 0
      = some (mkEntry 0 (toL ("blue"))) :=
  (dnaC6 [mkEntry 0 (toL ("red"))] 0 (toL ("blue"))
    (List.pairwise_singleton _ _)).1.1

/-- The progress keys of a timeline, in list order. -/
def keyList (l : List Entry) : List ℚ := l.map (fun e => e.progress)

/-- Sortedness of a timeline is sortedness of its key list. -/
theorem sortedE_iff_keys {l : List Entry} :
    sortedE l ↔ List.Pairwise (fun x y : ℚ => x < y) (keyList l) :=
  (List.pairwise_map).symm

/-- A successful overwrite does not change the key list. -/
theorem keyList_addLoop (p : ℚ) (obj : Entry) (hobj : obj.progress = p) :
    ∀ (l l2 : List Entry), addLoop l p obj = some l2 → keyList l2 = keyList l := by
  intro l
  induction l with
  | nil => intro l2 h; exact absurd h (by simp [addLoop])
  | cons x xs ih =>
    intro l2 h
    simp only [addLoop] at h
    by_cases hc : x.progress = p
    · rw [if_pos hc, Option.some_inj] at h
      rw [← h]
      simp [keyList, hobj, hc]
    · rw [if_neg hc] at h
      cases hrec : addLoop xs p obj with
      | none => rw [hrec] at h; exact absurd h (by simp)
      | some r =>
        rw [hrec] at h
        simp only [Option.map_some', Option.some_inj] at h
        rw [← h]
        have hr := ih r hrec
        simp only [keyList] at hr
        simp [keyList, hr]

/-- A successful overwrite witnesses an entry with the overwritten key. -/
theorem addLoop_some_mem {p : ℚ} {obj : Entry} : ∀ {l l2 : List Entry},
    addLoop l p obj = some l2 → ∃ e ∈ l, e.progress = p := by
  intro l
  induction l with
  | nil => intro l2 h; exact absurd h (by simp [addLoop])
  | cons x xs ih =>
    intro l2 h
    simp only [addLoop] at h
    by_cases hc : x.progress = p
    · exact ⟨x, by simp, hc⟩
    · rw [if_neg hc] at h
      cases hrec : addLoop xs p obj with
      | none => rw [hrec] at h; exact absurd h (by simp)
      | some r =>
        obtain ⟨e, he, hep⟩ := ih hrec
        exact ⟨e, by simp [he], hep⟩

/-- Inserting a fresh key into a sorted timeline keeps it sorted. -/
theorem sortedE_insEntry {obj : Entry} : ∀ {l : List Entry}, sortedE l →
    (∀ e ∈ l, e.progress ≠ obj.progress) → sortedE (insEntry obj l) := by
  intro l
  induction l with
  | nil => intro _ _; simp [insEntry, sortedE]
  | cons x xs ih =>
    intro hs hne
    have hx : ∀ y ∈ xs, x.progress < y.progress := (List.pairwise_cons.mp hs).1
    have hxs : sortedE xs := (List.pairwise_cons.mp hs).2
    simp only [insEntry]
    by_cases hc : obj.progress ≤ x.progress
    · rw [if_pos hc]
      have hlt : obj.progress < x.progress :=
        lt_of_le_of_ne hc (fun h0 => hne x (by simp) h0.symm)
      refine List.pairwise_cons.mpr ⟨?_, hs⟩
      intro y hy
      rcases List.mem_cons.mp hy with rfl | hyx
      · exact hlt
      · exact lt_trans hlt (hx y hyx)
    · rw [if_neg hc]
      have hlt : x.progress < obj.progress := not_le.mp hc
      refine List.pairwise_cons.mpr ⟨?_, ih hxs (fun e he => hne e (by simp [he]))⟩
      intro y hy
      rcases mem_insEntry.mp hy with rfl | hyx
      · exact hlt
      · exact hx y hyx

/-- Keys present after an ordered insertion. -/
theorem keyList_insEntry_mem {obj : Entry} {l : List Entry} {q : ℚ} :
    q ∈ keyList (insEntry obj l) ↔ q ∈ keyList l ∨ q = obj.progress := by
  simp only [keyList, List.mem_map]
  constructor
  · rintro ⟨e, he, rfl⟩
    rcases mem_insEntry.mp he with rfl | hel
    · exact Or.inr rfl
    · exact Or.inl ⟨e, hel, rfl⟩
  · rintro (⟨e, hel, rfl⟩ | rfl)
    · exact ⟨e, mem_insEntry.mpr (Or.inr hel), rfl⟩
    · exact ⟨obj, mem_insEntry.mpr (Or.inl rfl), rfl⟩

/-- Adding preserves sortedness (both the overwrite and the insert branch). -/
theorem sortedE_addEntry (l : List Entry) (p : ℚ) (v : List Char)
    (hs : sortedE l) : sortedE (addEntry l p v) := by
  cases hloop : addLoop l p (mkEntry p v) with
  | some l2 =>
    have he : addEntry l p v = l2 := by simp only [addEntry, hloop]
    rw [he, sortedE_iff_keys, keyList_addLoop p (mkEntry p v) rfl l l2 hloop,
      ← sortedE_iff_keys]
    exact hs
  | none =>
    have hfresh : ∀ e ∈ l, e.progress ≠ p := addLoop_eq_none_iff.mp hloop
    have he : addEntry l p v = sortEntries (l ++ [mkEntry p v]) := by
      simp only [addEntry, hloop]
    rw [he, sortEntries_app_one hs hfresh]
    exact sortedE_insEntry hs hfresh

/-- Claim C8: every sequence of `add` calls starting from the empty timeline
yields a strictly increasing, unique-keyed entry list; adding on an existing
key rewrites in place, changing neither the key list's length nor its order;
adding a fresh key inserts it, keeping the list sorted, and only adds that
key. -/
theorem dnaC8 :
    (∀ (l : List Entry) (p : ℚ) (v : List Char), sortedE l →
        sortedE (addEntry l p v))
    ∧ (∀ ops : List (ℚ × List Char),
        sortedE (ops.foldl (fun l pv => addEntry l pv.1 pv.2) []))
    ∧ (∀ (l : List Entry) (p : ℚ) (v : List Char), sortedE l →
        (∃ e ∈ l, e.progress = p) → keyList (addEntry l p v) = keyList l)
    ∧ (∀ (l : List Entry) (p : ℚ) (v : List Char), sortedE l →
        (∀ e ∈ l, e.progress ≠ p) →
        ∀ q : ℚ, q ∈ keyList (addEntry l p v) ↔ q ∈ keyList l ∨ q = p) := by
  refine ⟨sortedE_addEntry, ?_, ?_, ?_⟩
  · intro ops
    have hgen : ∀ (ops : List (ℚ × List Char)) (l : List Entry), sortedE l →
        sortedE (ops.foldl (fun l2 pv => addEntry l2 pv.1 pv.2) l) := by
      intro ops
      induction ops with
      | nil => intro l hl; exact hl
      | cons op ops ih =>
        intro l hl
        exact ih _ (sortedE_addEntry l op.1 op.2 hl)
    exact hgen ops [] (by simp [sortedE])
  · intro l p v hs hex
    cases hloop : addLoop l p (mkEntry p v) with
    | some l2 =>
      have he : addEntry l p v = l2 := by simp only [addEntry, hloop]
      rw [he, keyList_addLoop p (mkEntry p v) rfl l l2 hloop]
    | none =>
      obtain ⟨e, he, hep⟩ := hex
      exact absurd hep (addLoop_eq_none_iff.mp hloop e he)
  · intro l p v hs hfresh q
    have hloop : addLoop l p (mkEntry p v) = none := addLoop_eq_none_iff.mpr hfresh
    have he : addEntry l p v = sortEntries (l ++ [mkEntry p v]) := by
      simp only [addEntry, hloop]
    rw [he, sortEntries_app_one hs hfresh, keyList_insEntry_mem,
      show (mkEntry p v).progress = p from rfl]

/-- Witness for C8: overwriting the only key of a singleton timeline keeps
the key list unchanged. -/
theorem dnaC8_wit :
    keyList (addEntry [mkEntry 0 (toL ("1px"))] 0 (toL ("2px")))
      = keyList [mkEntry 0 (toL ("1px"))] :=
  dnaC8.2.2.1 [mkEntry 0 (toL ("1px"))] 0 (toL ("2px"))
    (List.pairwise_singleton _ _)
    ⟨mkEntry 0 (toL ("1px")), List.mem_singleton.mpr rfl, rfl⟩

/-- Claim C9 (amended): if some attribute token that does not carry the
`:debugger` marker has an unresolvable animation name, construction fails
with the "missing animation" error identifying an unresolvable listed name,
and no property-timeline state is produced (tokens carrying `:debugger` are
skipped without resolution, see the counterexample). -/
theorem dnaC9 (env : List (List Char × Rule)) (attr : List Char)
    (hex : ∃ tok ∈ tokenizeAttr attr,
        strHasSub (toL (":debugger")) tok = false
        ∧ resolveRule env (nameOf tok) = none) :
    ∃ nm ∈ (tokenizeAttr attr).map nameOf,
      resolveRule env nm = none
      ∧ dnaAnimAttr env attr = Except.error (missingMsg nm)
      ∧ ∀ props : List DnaProp, dnaAnimAttr env attr ≠ Except.ok props := by
  have hgen : ∀ (toks : List (List Char)) (props : List DnaProp),
      (∃ tok ∈ toks, strHasSub (toL (":debugger")) tok = false
        ∧ resolveRule env (nameOf tok) = none) →
      ∃ nm ∈ toks.map nameOf, resolveRule env nm = none
        ∧ dnaAnimGo env props toks = Except.error (missingMsg nm) := by
    intro toks
    induction toks with
    | nil =>
      intro props hex0
      obtain ⟨tok, htok, _⟩ := hex0
      exact absurd htok (List.not_mem_nil tok)
    | cons tok toks ih =>
      intro props hex0
      by_cases hdbg : strHasSub (toL (":debugger")) tok = true
      · have hstep : dnaAnimGo env props (tok :: toks) = dnaAnimGo env props toks := by
          simp only [dnaAnimGo, if_pos hdbg]
        obtain ⟨t, ht, hnd, hres⟩ := hex0
        rcases List.mem_cons.mp ht with rfl | htm
        · rw [hdbg] at hnd
          exact absurd hnd (by simp)
        · obtain ⟨nm, hmem, hr, herr⟩ := ih props ⟨t, htm, hnd, hres⟩
          exact ⟨nm, by simp only [List.map_cons]; exact List.mem_cons_of_mem _ hmem,
            hr, by rw [hstep]; exact herr⟩
      · have hdbgf : strHasSub (toL (":debugger")) tok = false :=
          Bool.eq_false_iff.mpr hdbg
        cases hres0 : resolveRule env (nameOf tok) with
        | none =>
          refine ⟨nameOf tok, by simp, hres0, ?_⟩
          simp only [dnaAnimGo, if_neg hdbg, hres0]
        | some rule =>
          have hstep : dnaAnimGo env props (tok :: toks)
              = dnaAnimGo env (parseRule props rule (modsOf tok)) toks := by
            simp only [dnaAnimGo, if_neg hdbg, hres0]
          obtain ⟨t, ht, hnd, hres⟩ := hex0
          rcases List.mem_cons.mp ht with rfl | htm
          · rw [hres0] at hres
            exact absurd hres (by simp)
          · obtain ⟨nm, hmem, hr, herr⟩ :=
              ih (parseRule props rule (modsOf tok)) ⟨t, htm, hnd, hres⟩
            exact ⟨nm, by simp only [List.map_cons]; exact List.mem_cons_of_mem _ hmem,
              hr, by rw [hstep]; exact herr⟩
  obtain ⟨nm, hmem, hr, herr⟩ := hgen (tokenizeAttr attr) [] hex
  exact ⟨nm, hmem, hr, herr, fun props hok => by
    rw [show dnaAnimAttr env attr = dnaAnimGo env [] (tokenizeAttr attr) from rfl,
      herr] at hok
    exact absurd hok (by simp)⟩

/-- Witness for C9: the sole token `nope` resolves to nothing and
construction throws the identifying error. -/
theorem dnaC9_wit :
    dnaAnimAttr [] (toL ("nope")) = Except.error (missingMsg (toL ("nope"))) := by
  obtain ⟨nm, hmem, _, herr, _⟩ :=
    dnaC9 [] (toL ("nope")) ⟨toL ("nope"), by decide, by decide, rfl⟩
  have hnm : nm = toL ("nope") := by
    have h2 : (tokenizeAttr (toL ("nope"))).map nameOf = [toL ("nope")] := by decide
    rw [h2] at hmem
    exact List.mem_singleton.mp hmem
  rw [hnm] at herr
  exact herr

/-- Counterexample to C9 as stated: the token `missing:debugger` lists the
unresolvable animation name `missing`, yet construction succeeds (the token
is skipped because of its `:debugger` marker), producing an empty — not
failed — animation. -/
theorem dnaC9_counter :
    (toL ("missing")) ∈ (tokenizeAttr (toL ("missing:debugger"))).map nameOf
    ∧ resolveRule [] (toL ("missing")) = none
    ∧ dnaAnimAttr [] (toL ("missing:debugger")) = Except.ok [] :=
  ⟨by decide, rfl, rfl⟩

/-- Ordered insertion never produces the empty list. -/
theorem insEntry_ne_nil (e : Entry) : ∀ (l : List Entry), insEntry e l ≠ [] := by
  intro l
  cases l with
  | nil => simp [insEntry]
  | cons x xs =>
    simp only [insEntry]
    by_cases hc : e.progress ≤ x.progress
    · rw [if_pos hc]; simp
    · rw [if_neg hc]; simp

/-- A successful overwrite never produces the empty list. -/
theorem addLoop_some_ne_nil {p : ℚ} {obj : Entry} : ∀ {l l2 : List Entry},
    addLoop l p obj = some l2 → l2 ≠ [] := by
  intro l
  induction l with
  | nil => intro l2 h; exact absurd h (by simp [addLoop])
  | cons x xs ih =>
    intro l2 h
    simp only [addLoop] at h
    by_cases hc : x.progress = p
    · rw [if_pos hc, Option.some_inj] at h
      rw [← h]; simp
    · rw [if_neg hc] at h
      cases hrec : addLoop xs p obj with
      | none => rw [hrec] at h; exact absurd h (by simp)
      | some r =>
        rw [hrec] at h
        simp only [Option.map_some', Option.some_inj] at h
        rw [← h]; simp

/-- `add` never produces the empty list. -/
theorem addEntry_ne_nil (l : List Entry) (p : ℚ) (v : List Char) :
    addEntry l p v ≠ [] := by
  cases hloop : addLoop l p (mkEntry p v) with
  | some l2 =>
    have he : addEntry l p v = l2 := by simp only [addEntry, hloop]
    rw [he]
    exact addLoop_some_ne_nil hloop
  | none =>
    have he : addEntry l p v = sortEntries (l ++ [mkEntry p v]) := by
      simp only [addEntry, hloop]
    rw [he]
    cases hl : l ++ [mkEntry p v] with
    | nil => exact absurd hl (by simp)
    | cons x xs =>
      simp only [sortEntries]
      exact insEntry_ne_nil x (sortEntries xs)

/-- Every property timeline in the accumulator map is nonempty. -/
def propsNonEmpty (props : List DnaProp) : Prop := ∀ dp ∈ props, dp.list ≠ []

/-- A fold preserves any invariant its step preserves. -/
theorem foldl_preserve {α β : Type} (Inv : β → Prop) (f : β → α → β)
    (h : ∀ s x, Inv s → Inv (f s x)) :
    ∀ (xs : List α) (s : β), Inv s → Inv (xs.foldl f s) := by
  intro xs
  induction xs with
  | nil => intro s hs; exact hs
  | cons x xs ih =>
    intro s hs
    exact ih (f s x) (h s x hs)

/-- Registering a value keeps every timeline nonempty (a timeline is created
only immediately before an `add` into it). -/
theorem addPropTo_inv (n : List Char) (p : ℚ) (v : List Char) :
    ∀ (props : List DnaProp), propsNonEmpty props →
    propsNonEmpty (addPropTo props n p v) := by
  intro props
  induction props with
  | nil =>
    intro _ dp hdp
    rw [List.mem_singleton.mp hdp]
    exact addEntry_ne_nil [] p v
  | cons d rest ih =>
    intro hInv dp hdp
    simp only [addPropTo] at hdp
    by_cases hc : d.name = n
    · rw [if_pos hc] at hdp
      rcases List.mem_cons.mp hdp with rfl | hm
      · exact addEntry_ne_nil d.list p v
      · exact hInv dp (by simp [hm])
    · rw [if_neg hc] at hdp
      rcases List.mem_cons.mp hdp with rfl | hm
      · exact hInv dp (by simp)
      · exact ih (fun e he => hInv e (by simp [he])) dp hm

/-- Parsing one rule keeps every timeline nonempty. -/
theorem parseRule_inv (rule : Rule) (mods : List (List Char)) :
    ∀ (props : List DnaProp), propsNonEmpty props →
    propsNonEmpty (parseRule props rule mods) := by
  intro props hInv
  unfold parseRule
  refine foldl_preserve propsNonEmpty _ ?_ rule.cssRules props hInv
  intro s kf hs
  refine foldl_preserve propsNonEmpty _ ?_ (keyProgresses kf) s hs
  intro s2 p0 hs2
  cases hmod : (mods.map splitMod).foldl applyModTok p0 with
  | none => exact hs2
  | some p =>
    refine foldl_preserve propsNonEmpty _ ?_ kf.style s2 hs2
    intro s3 pr hs3
    exact addPropTo_inv pr.1 p pr.2 s3 hs3

/-- A successful construction only ever extends nonempty timelines. -/
theorem dnaAnimGo_ok_inv (env : List (List Char × Rule)) :
    ∀ (toks : List (List Char)) (props0 props : List DnaProp),
    propsNonEmpty props0 → dnaAnimGo env props0 toks = Except.ok props →
    propsNonEmpty props := by
  intro toks
  induction toks with
  | nil =>
    intro props0 props hInv hok
    simp only [dnaAnimGo, Except.ok.injEq] at hok
    rw [← hok]
    exact hInv
  | cons tok toks ih =>
    intro props0 props hInv hok
    by_cases hdbg : strHasSub (toL (":debugger")) tok = true
    · rw [show dnaAnimGo env props0 (tok :: toks) = dnaAnimGo env props0 toks from by
        simp only [dnaAnimGo, if_pos hdbg]] at hok
      exact ih props0 props hInv hok
    · cases hres : resolveRule env (nameOf tok) with
      | none =>
        rw [show dnaAnimGo env props0 (tok :: toks)
            = Except.error (missingMsg (nameOf tok)) from by
          simp only [dnaAnimGo, if_neg hdbg, hres]] at hok
        exact absurd hok (by simp)
      | some rule =>
        rw [show dnaAnimGo env props0 (tok :: toks)
            = dnaAnimGo env (parseRule props0 rule (modsOf tok)) toks from by
          simp only [dnaAnimGo, if_neg hdbg, hres]] at hok
        exact ih _ props (parseRule_inv rule (modsOf tok) props0 hInv) hok

/-- The search loop leaves both sides unset only on the empty list. -/
theorem scan_no_both_none : ∀ (l : List Entry) (p : ℚ) (b0 : Option Entry),
    scanList l p b0 = ScanOut.ba none none → l = [] ∧ b0 = none := by
  intro l
  induction l with
  | nil =>
    intro p b0 h
    simp only [scanList, ScanOut.ba.injEq] at h
    exact ⟨rfl, h.1⟩
  | cons kf rest ih =>
    intro p b0 h
    simp only [scanList] at h
    by_cases h1 : kf.progress = p
    · rw [if_pos h1] at h
      exact absurd h (by simp)
    · rw [if_neg h1] at h
      by_cases h2 : kf.progress < p
      · rw [if_pos h2] at h
        obtain ⟨_, hsome⟩ := ih p (some kf) h
        exact absurd hsome (by simp)
      · rw [if_neg h2] at h
        simp only [ScanOut.ba.injEq] at h
        exact absurd h.2 (by simp)

/-- On a nonempty timeline `get` always produces a string. -/
theorem dnaGet_isSome (name : List Char) (l : List Entry) (p : ℚ)
    (hne : l ≠ []) : (dnaGet name l p).isSome = true := by
  unfold dnaGet
  by_cases hr : 1 < p ∨ p < 0
  · rw [if_pos hr]; rfl
  · rw [if_neg hr]
    cases hscan : scanList l p none with
    | hit s => rfl
    | ba b a =>
      match b, a with
      | none, none => exact absurd (scan_no_both_none l p none hscan).1 hne
      | none, some a0 => rfl
      | some b0, none => rfl
      | some b0, some a0 => rfl

/-- Claim C10: in every successfully constructed animation, every property
timeline is nonempty, and `valueAt` on any progress in `[0, 1]` returns a
string — the `before`/`after` raw-value reads in the clamping branches never
touch a non-existent entry. -/
theorem dnaC10 (env : List (List Char × Rule)) (attr : List Char)
    (props : List DnaProp) (hok : dnaAnimAttr env attr = Except.ok props)
    (dp : DnaProp) (hdp : dp ∈ props) (p : ℚ) (h0 : 0 ≤ p) (h1 : p ≤ 1) :
    dp.list ≠ [] ∧ (dnaGet dp.name dp.list p).isSome = true := by
  have hne : dp.list ≠ [] :=
    dnaAnimGo_ok_inv env (tokenizeAttr attr) [] props
      (fun e he => absurd he (List.not_mem_nil e)) hok dp hdp
  exact ⟨hne, dnaGet_isSome dp.name dp.list p hne⟩

/-- The environment of the C10 witness: a `fade` rule with one keyframe. -/
def c10Env : List (List Char × Rule) :=
  [(toL ("fade"),
    { cssRules := [{ keyText := toL ("0%"),
                     style := [(toL ("opacity"), toL ("0"))] }] })]

/-- The property timeline constructed by the C10 witness. -/
def c10Prop : DnaProp :=
  { name := toL ("opacity"),
    list := [mkEntry (litToQ (toL ("0")) / 100) (toL ("0"))] }

/-- Witness for C10: the timeline built from `fade` is nonempty and
evaluable at progress `1/2`. -/
theorem dnaC10_wit :
    c10Prop.list ≠ [] ∧ (dnaGet c10Prop.name c10Prop.list (1/2)).isSome = true :=
  dnaC10 c10Env (toL ("fade")) [c10Prop] rfl c10Prop
    (List.mem_singleton.mpr rfl) (1/2) (by norm_num) (by norm_num)
